import Mathlib

/-!
Verification of the document structuring and chunking engine of `app/parse.py`.

Python strings are modelled as `List Char`; each Python function of the core
(`split_by_headers`, `is_tabular_section`, `chunk_table_content`,
`chunk_text_content`, `analyze_text_structure`, `analyze_table_structure`,
`chunk_document`) is translated into an executable Lean definition of the same
name.  Modelling conventions:

* `str.split('\n')` and friends become `splitOnP` (split on a character
  predicate, keeping empty pieces, exactly like Python `str.split(sep)`).
* `str.split('\n\n')` becomes `splitNN` (leftmost, non-overlapping).
* `re.split(r'[.!?]+', s)` becomes `splitTerm` (split on maximal runs of
  sentence terminators).
* `str.strip()` becomes `pyStrip`; the whitespace set is the ASCII part of
  Python's (space, tab, newline, carriage return, vertical tab, form feed).
* Python float ratios and their comparisons with the literals 0.4, 0.3, 0.6,
  0.2 are modelled as exact rational arithmetic over `ℚ`.
* `max(set(xs), key=xs.count)` is used by the source only through
  `xs.count(most_common)`, i.e. through the maximal multiplicity of `xs`;
  it is modelled as that maximal multiplicity (`maxNat (xs.map (xs.count ·))`).
* `time.time()`, `os.path.basename` and the md5 hash of
  `generate_document_id` are I/O; the resulting document id, document name,
  file path and creation timestamp enter `chunk_document` as opaque
  parameters.
-/

/-- ASCII part of the whitespace set stripped by Python `str.strip()`. -/
def isPySpace (c : Char) : Bool :=
  c == ' ' || c == '\t' || c == '\n' || c == '\r' || c == '\x0b' || c == '\x0c'

/-- ASCII decimal digit test (`\d` for the header regexes, and the alphabet of
decimal renderings of indices). -/
def isDigCh (c : Char) : Bool := decide ('0' ≤ c ∧ c ≤ '9')

/-- Uppercase ASCII letter (`[A-Z]`). -/
def isUpperAZ (c : Char) : Bool := decide ('A' ≤ c ∧ c ≤ 'Z')

/-- Lowercase ASCII letter (`[a-z]`). -/
def isLowerAZ (c : Char) : Bool := decide ('a' ≤ c ∧ c ≤ 'z')

/-- ASCII word character (`\w`: letter, digit or underscore). -/
def isWordCh (c : Char) : Bool := isUpperAZ c || isLowerAZ c || isDigCh c || c == '_'

/-- Sentence terminator characters of the prose chunker (`[.!?]`). -/
def isTermCh (c : Char) : Bool := c == '.' || c == '!' || c == '?'

/-- Newline test, the separator of `str.split('\n')`. -/
def isNL (c : Char) : Bool := c == '\n'

/-- Python `s.split(sep)` for a one-character separator described by the
predicate `p`: split into pieces, keeping empty pieces. -/
def splitOnP (p : Char → Bool) : List Char → List (List Char)
  | [] => [[]]
  | a :: rest =>
    if p a then [] :: splitOnP p rest
    else (splitOnP p rest).modifyHead (a :: ·)

/-- Python `s.split('\n\n')`: split on leftmost, non-overlapping occurrences
of two consecutive newlines. -/
def splitNN : List Char → List (List Char)
  | [] => [[]]
  | [c] => [[c]]
  | c :: c2 :: rest =>
    if c = '\n' ∧ c2 = '\n' then [] :: splitNN rest
    else
      match splitNN (c2 :: rest) with
      | [] => [[c]]
      | h :: t => (c :: h) :: t

/-- Recursion core of `splitTerm`; the fuel argument (instantiated with the
list length, which bounds the recursion depth) makes the recursion structural
so that the kernel can evaluate it. -/
def splitTermGo : Nat → List Char → List (List Char)
  | _, [] => [[]]
  | 0, l => [l]
  | fuel + 1, c :: rest =>
    if isTermCh c then [] :: splitTermGo fuel (rest.dropWhile isTermCh)
    else (splitTermGo fuel rest).modifyHead (c :: ·)

/-- Python `re.split(r'[.!?]+', s)`: split on maximal runs of sentence
terminators. -/
def splitTerm (l : List Char) : List (List Char) := splitTermGo l.length l

/-- Python `s.strip()` (ASCII whitespace). -/
def pyStrip (l : List Char) : List Char :=
  (((l.dropWhile isPySpace).reverse).dropWhile isPySpace).reverse

/-- Python `s.strip(cs)` for an explicit character set `cs`. -/
def pyStripChars (cs : List Char) (l : List Char) : List Char :=
  (((l.dropWhile (cs.contains ·)).reverse).dropWhile (cs.contains ·)).reverse

/-- Python `needle in haystack` for strings: `pre` is an initial segment. -/
def beginsWith : List Char → List Char → Bool
  | [], _ => true
  | _ :: _, [] => false
  | a :: as, b :: bs => a == b && beginsWith as bs

/-- Python `needle in haystack` for strings: contiguous substring test. -/
def containsList (needle : List Char) : List Char → Bool
  | [] => beginsWith needle []
  | b :: bs => beginsWith needle (b :: bs) || containsList needle bs

/-- Consecutive groups of `k` elements, Python
`[l[i:i+k] for i in range(0, len(l), k)]`.  Faithful for `1 ≤ k` (for `k = 0`
the Python `range` raises `ValueError`; here the result is `[]`). -/
def groupsOfGo (k : Nat) : Nat → List α → List (List α)
  | _, [] => []
  | 0, _ :: _ => []
  | fuel + 1, a :: t => (a :: t).take k :: groupsOfGo k fuel ((a :: t).drop k)

/-- Consecutive groups of `k` elements (see `groupsOfGo` for the fuel). -/
def groupsOf (k : Nat) (l : List α) : List (List α) :=
  if k = 0 then [] else groupsOfGo k l.length l

/-- Recursion core of `natToDec` with a fuel bounding the recursion depth. -/
def natToDecGo : Nat → Nat → List Char
  | 0, n => [Nat.digitChar n]
  | fuel + 1, n =>
    if n < 10 then [Nat.digitChar n]
    else natToDecGo fuel (n / 10) ++ [Nat.digitChar (n % 10)]

/-- Decimal rendering of a natural number, Python `str(n)` inside an f-string. -/
def natToDec (n : Nat) : List Char := natToDecGo n n

/-- Maximum of a list of naturals, `0` on the empty list. -/
def maxNat (l : List Nat) : Nat := l.foldr max 0

/-- Python `'\n'.join(lines)`. -/
def joinNL (ls : List (List Char)) : List Char := List.intercalate ['\n'] ls

/-- Lines of `l` (split on `'\n'`) whose `strip()` is non-empty. -/
def nbLines (l : List Char) : List (List Char) :=
  (splitOnP isNL l).filter (fun s => !(pyStrip s).isEmpty)

/-- The keyword list of the Content-Type Classifier (`table_keywords` in
`is_tabular_section`). -/
def tableKeywords : List (List Char) :=
  [("table").toList, ("column").toList, ("row").toList, ("premium").toList,
   ("coverage").toList, ("benefit").toList, ("amount").toList]

/-- `is_tabular_section` from `app/parse.py`: decides whether a section's
content is tabular.  Ratios are exact rationals; `consistency` is the maximal
multiplicity of `column_counts` divided by its size. -/
def is_tabular_section (content : List Char) : Bool :=
  let lines := splitOnP isNL content
  if lines.length < 2 then false
  else
    let pipeLines := lines.countP (fun l => l.contains '|' && decide (2 ≤ l.count '|'))
    let tabLines := lines.countP (fun l => l.contains '\t' && decide (1 ≤ l.count '\t'))
    let columnCounts := lines.filterMap (fun l =>
      if l.contains '|' then some (l.count '|')
      else if l.contains '\t' then some (l.count '\t')
      else none)
    let pipeRatio : ℚ := mkRat pipeLines lines.length
    let tabRatio : ℚ := mkRat tabLines lines.length
    let consistency : ℚ :=
      if columnCounts.isEmpty then 0
      else mkRat (maxNat (columnCounts.map (fun v => columnCounts.count v)))
        columnCounts.length
    let keywordPresent := tableKeywords.any (fun k =>
      containsList (k.map Char.toLower) (content.map Char.toLower))
    decide (mkRat 2 5 < pipeRatio) ||
    decide (mkRat 3 10 < tabRatio) ||
    (decide (mkRat 3 5 < consistency) && decide (1 < columnCounts.length)) ||
    (keywordPresent && (decide (mkRat 1 5 < pipeRatio) || decide (mkRat 1 5 < tabRatio)))

/-- Header detection loop of `chunk_table_content`: scan the given lines (the
first three non-empty lines), return the first one containing `'|'` or a tab
together with the index just after it (`start_idx`). -/
def findHeaderAux : List (List Char) → Nat → Option (List Char × Nat)
  | [], _ => none
  | l :: rest, i =>
    if l.contains '|' || l.contains '\t' then some (l, i + 1)
    else findHeaderAux rest (i + 1)

/-- `chunk_table_content` from `app/parse.py`: splits tabular content into
row-bounded chunks, prepending the detected header line to every chunk after
the first. -/
def chunk_table_content (content : List Char) (maxRows : Nat) : List (List Char) :=
  let lines := splitOnP isNL content
  let nonEmptyLines := lines.filter (fun l => !(pyStrip l).isEmpty)
  if nonEmptyLines.length ≤ maxRows then [content]
  else
    match findHeaderAux (nonEmptyLines.take 3) 0 with
    | some (headerLine, startIdx) =>
      match groupsOf maxRows (nonEmptyLines.drop startIdx) with
      | [] => []
      | g :: gs => joinNL g :: gs.map (fun g2 => headerLine ++ '\n' :: joinNL g2)
    | none => (groupsOf maxRows nonEmptyLines).map joinNL

/-- One sentence step of `chunk_text_content`: state is
`(chunks, current_chunk)`. -/
def ctsSentStep (maxChars : Nat) (st : List (List Char) × List Char)
    (sRaw : List Char) : List (List Char) × List Char :=
  let s := pyStrip sRaw
  if s.isEmpty then st
  else if maxChars < st.2.length + s.length then
    ((if st.2.isEmpty then st.1 else st.1 ++ [pyStrip st.2]), s)
  else (st.1, if st.2.isEmpty then s else st.2 ++ ' ' :: s)

/-- One paragraph step of `chunk_text_content`. -/
def ctsParaStep (maxChars : Nat) (st : List (List Char) × List Char)
    (p : List Char) : List (List Char) × List Char :=
  if maxChars < p.length then (splitTerm p).foldl (ctsSentStep maxChars) st
  else if maxChars < st.2.length + p.length then
    ((if st.2.isEmpty then st.1 else st.1 ++ [pyStrip st.2]), p)
  else (st.1, if st.2.isEmpty then p else st.2 ++ '\n' :: '\n' :: p)

/-- `chunk_text_content` from `app/parse.py`: splits prose into
character-bounded chunks on paragraph/sentence boundaries. -/
def chunk_text_content (content : List Char) (maxChars : Nat) : List (List Char) :=
  if content.length ≤ maxChars then [content]
  else
    let st := (splitNN content).foldl (ctsParaStep maxChars) ([], [])
    if st.2.isEmpty then st.1 else st.1 ++ [pyStrip st.2]

/-- Header pattern 1 of `split_by_headers`, `^(#{1,6}\s+.+)$`: one to six
hash marks, at least one whitespace character, at least one further
character. -/
def isMdHeader (l : List Char) : Bool :=
  let hashes := l.takeWhile (· == '#')
  let rest := l.drop hashes.length
  decide (1 ≤ hashes.length) && decide (hashes.length ≤ 6) &&
  decide (2 ≤ rest.length) && isPySpace (rest.headD 'x')

/-- Header pattern 2, `^(\d+\.[\d\.]*\s+.+)$`: digits, a dot, a run of digits
and dots, at least one whitespace character, at least one further character. -/
def isNumberedHeader (l : List Char) : Bool :=
  let ds := l.takeWhile isDigCh
  decide (1 ≤ ds.length) &&
  match l.drop ds.length with
  | '.' :: r2 =>
    let r3 := r2.dropWhile (fun c => isDigCh c || c == '.')
    decide (2 ≤ r3.length) && isPySpace (r3.headD 'x')
  | _ => false

/-- Character class `[A-Z\s]` of header pattern 3. -/
def isCapsOrSpace (c : Char) : Bool := isUpperAZ c || isPySpace c

/-- Header pattern 3, `^([A-Z][A-Z\s]{5,}:?)$`: an uppercase letter, at least
five characters drawn from uppercase letters and whitespace, an optional
final colon. -/
def isAllCapsHeader (l : List Char) : Bool :=
  (decide (6 ≤ l.length) && isUpperAZ (l.headD 'x') && l.tail.all isCapsOrSpace) ||
  (decide (7 ≤ l.length) && (l.getLast? == some ':') && isUpperAZ (l.headD 'x') &&
    l.tail.dropLast.all isCapsOrSpace)

/-- Header pattern 4, `^([A-Z][a-z][\w\s]{3,}:)$`: an uppercase letter, a
lowercase letter, at least three word-or-space characters, a final colon. -/
def isTitleColonHeader (l : List Char) : Bool :=
  decide (6 ≤ l.length) && isUpperAZ (l.headD 'x') && isLowerAZ (l.tail.headD 'x') &&
  (l.getLast? == some ':') && (l.drop 2).dropLast.all (fun c => isWordCh c || isPySpace c)

/-- Header pattern 5, `^(\*\*[^*]+\*\*)$`: bold markdown. -/
def isBoldStarHeader (l : List Char) : Bool :=
  decide (5 ≤ l.length) && (l.take 2 == ['*', '*']) &&
  (l.drop (l.length - 2) == ['*', '*']) &&
  ((l.drop 2).dropLast.dropLast.all (· != '*'))

/-- Header pattern 6, `^(__[^_]+__)$`: bold underscores. -/
def isBoldUnderHeader (l : List Char) : Bool :=
  decide (5 ≤ l.length) && (l.take 2 == ['_', '_']) &&
  (l.drop (l.length - 2) == ['_', '_']) &&
  ((l.drop 2).dropLast.dropLast.all (· != '_'))

/-- A (stripped) line matches one of the six header patterns of
`split_by_headers`.  Each pattern's group is the whole line and the title is
computed from the line in the same way for all patterns, so the priority
order among them is immaterial. -/
def isHeaderLine (l : List Char) : Bool :=
  isMdHeader l || isNumberedHeader l || isAllCapsHeader l ||
  isTitleColonHeader l || isBoldStarHeader l || isBoldUnderHeader l

/-- The character set of `header_text.strip('# *_:')`. -/
def headerMarkChars : List Char := ['#', ' ', '*', '_', ':']

/-- A section of `split_by_headers`: `{'title': ..., 'content': ...}`. -/
structure Sec where
  title : List Char
  content : List Char
deriving DecidableEq, Repr

/-- One line step of `split_by_headers`: state is
`(sections, current_section)`. -/
def sbhStep (st : List Sec × Sec) (rawLine : List Char) : List Sec × Sec :=
  let line := pyStrip rawLine
  if line.isEmpty then (st.1, ⟨st.2.title, st.2.content ++ ['\n']⟩)
  else if isHeaderLine line then
    ((if (pyStrip st.2.content).isEmpty then st.1 else st.1 ++ [st.2]),
      ⟨pyStripChars headerMarkChars line, []⟩)
  else (st.1, ⟨st.2.title, st.2.content ++ line ++ ['\n']⟩)

/-- `split_by_headers` from `app/parse.py`: partitions page text into titled
sections, falling back to a single `"Document Content"` section when no
section was produced. -/
def split_by_headers (text : List Char) : List Sec :=
  let st := (splitOnP isNL text).foldl sbhStep ([], ⟨("Introduction").toList, []⟩)
  let secs := if (pyStrip st.2.content).isEmpty then st.1 else st.1 ++ [st.2]
  if secs.isEmpty then [⟨("Document Content").toList, text⟩] else secs

/-- Metadata of a text chunk (`analyze_text_structure`). -/
structure TextInfo where
  paragraph_count : Nat
  sentence_count : Nat
  word_count : Nat
deriving DecidableEq, Repr

/-- Metadata of a table chunk (`analyze_table_structure`). -/
structure TableInfo where
  estimated_columns : Nat
  row_count : Nat
  has_header : Bool
deriving DecidableEq, Repr

/-- `analyze_text_structure` from `app/parse.py`. -/
def analyze_text_structure (t : List Char) : TextInfo :=
  ⟨(splitNN t).countP (fun p => !(pyStrip p).isEmpty),
   (splitTerm t).countP (fun s => !(pyStrip s).isEmpty),
   ((splitOnP isPySpace t).filter (fun w => !w.isEmpty)).length⟩

/-- Python `line.count('|') or line.count('\t')` in `analyze_table_structure`:
the pipe count if non-zero, otherwise the tab count. -/
def pipeOrTabCount (l : List Char) : Nat :=
  if l.count '|' ≠ 0 then l.count '|' else l.count '\t'

/-- `analyze_table_structure` from `app/parse.py`. -/
def analyze_table_structure (t : List Char) : TableInfo :=
  let nonEmptyLines := (splitOnP isNL t).filter (fun l => !(pyStrip l).isEmpty)
  let columnCounts := nonEmptyLines.filterMap (fun l =>
    if l.contains '|' then some (l.count '|' + 1)
    else if l.contains '\t' then some (l.count '\t' + 1)
    else none)
  let estimatedColumns := if columnCounts.isEmpty then 1 else maxNat columnCounts
  let hasHeader :=
    match nonEmptyLines with
    | l0 :: l1 :: _ =>
      decide (pipeOrTabCount l0 = pipeOrTabCount l1) && decide (0 < pipeOrTabCount l0)
    | _ => false
  ⟨estimatedColumns, nonEmptyLines.length, hasHeader⟩

/-- The chunk id f-string
`f"{document_id}_p{page_num}_s{section_idx}_{t|c}{chunk_idx}"`. -/
def mkChunkId (d : List Char) (page sec : Nat) (letter : Char) (sub : Nat) : List Char :=
  d ++ '_' :: 'p' :: (natToDec page ++ '_' :: 's' ::
    (natToDec sec ++ '_' :: letter :: natToDec sub))

/-- A chunk record emitted by `chunk_document`.  The `text_info` / `table_info`
keys exist only on the corresponding chunk type, hence the `Option` fields. -/
structure Chunk where
  document_id : List Char
  document_name : List Char
  file_path : List Char
  title : List Char
  page_number : Nat
  section_index : Nat
  chunk_id : List Char
  created_at : Nat
  text : List Char
  type : List Char
  text_info : Option TextInfo
  table_info : Option TableInfo
deriving DecidableEq, Repr

/-- Chunks produced for one section of one page by `chunk_document`: classify,
branch to the table or text chunker (with the source's default bounds 10 and
1000), and assemble the records. -/
def sectionChunks (docId docName filePath : List Char) (createdAt : Nat)
    (page secIdx : Nat) (sec : Sec) : List Chunk :=
  if is_tabular_section sec.content then
    (chunk_table_content sec.content 10).enum.map (fun ce =>
      { document_id := docId, document_name := docName, file_path := filePath,
        title := sec.title, page_number := page, section_index := secIdx,
        chunk_id := mkChunkId docId page secIdx 't' ce.1,
        created_at := createdAt, text := ce.2, type := ("table").toList,
        text_info := none, table_info := some (analyze_table_structure ce.2) })
  else
    (chunk_text_content sec.content 1000).enum.map (fun ce =>
      { document_id := docId, document_name := docName, file_path := filePath,
        title := sec.title, page_number := page, section_index := secIdx,
        chunk_id := mkChunkId docId page secIdx 'c' ce.1,
        created_at := createdAt, text := ce.2, type := ("text").toList,
        text_info := some (analyze_text_structure ce.2), table_info := none })

/-- Chunks produced for one page by `chunk_document`. -/
def pageChunks (docId docName filePath : List Char) (createdAt : Nat)
    (page : Nat) (text : List Char) : List Chunk :=
  (split_by_headers text).enum.flatMap (fun se =>
    sectionChunks docId docName filePath createdAt page se.1 se.2)

/-- `chunk_document` from `app/parse.py`: the Chunk Assembler.  `docs` is the
ordered list of page texts (`doc.text` of each parsed document); the document
id, name, file path and `created_at` timestamp are opaque parameters (they
come from I/O in the source). -/
def chunk_document (docs : List (List Char)) (docId docName filePath : List Char)
    (createdAt : Nat) : List Chunk :=
  docs.enum.flatMap (fun pe =>
    pageChunks docId docName filePath createdAt (pe.1 + 1) pe.2)

/-- What `split_by_headers` keeps of an input line: `None` for a blank or
header line, otherwise the stripped line (which is what gets appended to the
current section's content). -/
def goodLine (raw : List Char) : Option (List Char) :=
  let s := pyStrip raw
  if s.isEmpty then none else if isHeaderLine s then none else some s

/-- The non-blank lines of the concatenated section contents, in order
(concatenating contents and ignoring blank lines commute, because every
content is newline-terminated or empty). -/
def recoveredLines (secs : List Sec) : List (List Char) :=
  (secs.map (fun s => nbLines s.content)).flatten

/-- The content is newline-terminated or empty: invariant of the accumulating
section content in `split_by_headers`. -/
def nlTerminated (l : List Char) : Prop := l = [] ∨ ∃ l2, l = l2 ++ ['\n']

/-- No sentence-terminator character occurs in `l`. -/
def termFree (l : List Char) : Prop := ∀ c ∈ l, isTermCh c = false

/-- `ch` consists of exactly one (stripped) paragraph of `content`, or of
exactly one (stripped) sentence of an over-long paragraph of `content` —
the shapes exempted from the prose chunker's size bound. -/
def IsPieceOf (content : List Char) (maxChars : Nat) (ch : List Char) : Prop :=
  (∃ p ∈ splitNN content, ch = pyStrip p) ∨
  (∃ p ∈ splitNN content, maxChars < p.length ∧ ∃ s ∈ splitTerm p, ch = pyStrip s)

instance decIsPieceOf (content : List Char) (maxChars : Nat) (ch : List Char) :
    Decidable (IsPieceOf content maxChars ch) := by
  unfold IsPieceOf
  exact inferInstance

/-- Invariant of the prose chunker's accumulator `current_chunk`: it is within
the bound (plus joiner overhead) or it is a raw paragraph or a stripped
sentence of an over-long paragraph. -/
def c4CurOk (content : List Char) (maxChars : Nat) (cur : List Char) : Prop :=
  cur.length ≤ maxChars + 2 ∨
  (∃ p ∈ splitNN content, cur = p) ∨
  (∃ p ∈ splitNN content, maxChars < p.length ∧ ∃ s ∈ splitTerm p, cur = pyStrip s)

/-- Lines that count toward `pipe_ratio` per the claim: at least two pipes. -/
def c2Pipe (l : List Char) : Bool := decide (2 ≤ l.count '|')

/-- Lines that count toward `tab_ratio` per the claim: at least one tab. -/
def c2Tab (l : List Char) : Bool := decide (1 ≤ l.count '\t')

/-- The separator-count record of one line (pipe count, or tab count if no
pipe, or nothing). -/
def sepCount (l : List Char) : Option Nat :=
  if l.contains '|' then some (l.count '|')
  else if l.contains '\t' then some (l.count '\t')
  else none

/-- Claim C2's decision formula, transcribed from its words: ratios and the
separator-count multiset computed over the content's NON-BLANK lines, and the
consistency disjunct requiring more than one DISTINCT count value. -/
def c2ClaimHolds (content : List Char) : Prop :=
  let nl := (splitOnP isNL content).filter (fun l => !(pyStrip l).isEmpty)
  let cc := nl.filterMap sepCount
  let pipeRatio : ℚ := (nl.countP c2Pipe : ℚ) / (nl.length : ℚ)
  let tabRatio : ℚ := (nl.countP c2Tab : ℚ) / (nl.length : ℚ)
  let consistency : ℚ :=
    if cc.isEmpty then 0
    else (maxNat (cc.map (fun v => cc.count v)) : ℚ) / (cc.length : ℚ)
  (2 : ℚ)/5 < pipeRatio ∨ (3 : ℚ)/10 < tabRatio ∨
  ((3 : ℚ)/5 < consistency ∧ 1 < cc.dedup.length) ∨
  (tableKeywords.any (fun k =>
      containsList (k.map Char.toLower) (content.map Char.toLower)) = true ∧
    ((1 : ℚ)/5 < pipeRatio ∨ (1 : ℚ)/5 < tabRatio))

/-- The corrected decision formula: ratios over ALL lines of
`content.split('\n')` (blank lines included in the denominator and in the
separator-count multiset), the consistency disjunct requiring the multiset to
have more than one ELEMENT, a most-frequent-value ratio expressed as an
existential, and the two-line guard. -/
def c2AmendedHolds (content : List Char) : Prop :=
  let L := splitOnP isNL content
  let cc := L.filterMap sepCount
  2 ≤ L.length ∧
  ((2 : ℚ)/5 < (L.countP c2Pipe : ℚ) / (L.length : ℚ) ∨
   (3 : ℚ)/10 < (L.countP c2Tab : ℚ) / (L.length : ℚ) ∨
   (1 < cc.length ∧ ∃ v ∈ cc, (3 : ℚ)/5 < (cc.count v : ℚ) / (cc.length : ℚ)) ∨
   (tableKeywords.any (fun k =>
       containsList (k.map Char.toLower) (content.map Char.toLower)) = true ∧
     ((1 : ℚ)/5 < (L.countP c2Pipe : ℚ) / (L.length : ℚ) ∨
      (1 : ℚ)/5 < (L.countP c2Tab : ℚ) / (L.length : ℚ))))

/-- The 25-row pipe-delimited table of Scenario B / claim C3: one header line
and 24 data rows. -/
def c3Table : List Char :=
  ("h1|h2\nr1|x\nr2|x\nr3|x\nr4|x\nr5|x\nr6|x\nr7|x\nr8|x\nr9|x\nr10|x\n" ++
   "r11|x\nr12|x\nr13|x\nr14|x\nr15|x\nr16|x\nr17|x\nr18|x\nr19|x\nr20|x\n" ++
   "r21|x\nr22|x\nr23|x\nr24|x").toList

/-! ### Lemmas about the splitting and stripping primitives -/

lemma splitOnP_nil (p : Char → Bool) : splitOnP p [] = [[]] := rfl

lemma splitOnP_ne_nil (p : Char → Bool) (l : List Char) : splitOnP p l ≠ [] := by
  induction l with
  | nil => simp [splitOnP]
  | cons a rest ih =>
    by_cases h : p a
    · simp [splitOnP, h]
    · simp only [splitOnP, h]
      cases hs : splitOnP p rest with
      | nil => exact absurd hs ih
      | cons h t => simp [List.modifyHead]

lemma splitOnP_cons_sep {p : Char → Bool} {a : Char} (l : List Char) (h : p a = true) :
    splitOnP p (a :: l) = [] :: splitOnP p l := by
  simp [splitOnP, h]

lemma splitOnP_cons_nosep {p : Char → Bool} {a : Char} (l : List Char) (h : p a = false) :
    splitOnP p (a :: l) = (splitOnP p l).modifyHead (a :: ·) := by
  simp [splitOnP, h]

lemma splitOnP_no_sep {p : Char → Bool} {l : List Char} (h : ∀ c ∈ l, p c = false) :
    splitOnP p l = [l] := by
  induction l with
  | nil => rfl
  | cons a rest ih =>
    have ha : p a = false := h a (by simp)
    rw [splitOnP_cons_nosep rest ha, ih (fun c hc => h c (by simp [hc]))]
    rfl

lemma splitOnP_append_sep {p : Char → Bool} {a : Char} (l1 l2 : List Char)
    (h : p a = true) :
    splitOnP p (l1 ++ a :: l2) = splitOnP p l1 ++ splitOnP p l2 := by
  induction l1 with
  | nil => simpa [splitOnP_nil] using splitOnP_cons_sep l2 h
  | cons b rest ih =>
    by_cases hb : p b
    · simp only [List.cons_append, splitOnP_cons_sep _ hb, ih, List.cons_append]
    · rw [List.cons_append, splitOnP_cons_nosep _ (by simpa using hb),
        splitOnP_cons_nosep _ (by simpa using hb), ih]
      cases hs : splitOnP p rest with
      | nil => exact absurd hs (splitOnP_ne_nil p rest)
      | cons hh tt => simp [List.modifyHead]

lemma splitOnP_append_single_sep {p : Char → Bool} {a : Char} (l : List Char)
    (h : p a = true) : splitOnP p (l ++ [a]) = splitOnP p l ++ [[]] := by
  simpa [splitOnP_nil] using splitOnP_append_sep l [] h

lemma splitOnP_mem_no_sep {p : Char → Bool} {l s : List Char}
    (hs : s ∈ splitOnP p l) : ∀ c ∈ s, p c = false := by
  induction l generalizing s with
  | nil =>
    simp only [splitOnP_nil, List.mem_singleton] at hs
    subst hs; simp
  | cons a rest ih =>
    by_cases ha : p a
    · rw [splitOnP_cons_sep rest ha] at hs
      rcases List.mem_cons.mp hs with h1 | h1
      · subst h1; simp
      · exact ih h1
    · rw [splitOnP_cons_nosep rest (by simpa using ha)] at hs
      cases hsp : splitOnP p rest with
      | nil => exact absurd hsp (splitOnP_ne_nil p rest)
      | cons hh tt =>
        rw [hsp] at hs
        simp only [List.modifyHead] at hs
        rcases List.mem_cons.mp hs with h1 | h1
        · subst h1
          intro c hc
          rcases List.mem_cons.mp hc with rfl | hc2
          · simpa using ha
          · exact ih (by rw [hsp]; exact List.mem_cons_self hh tt) c hc2
        · exact ih (by rw [hsp]; exact List.mem_cons_of_mem hh h1)

lemma splitOnP_mem_subset {p : Char → Bool} {l s : List Char}
    (hs : s ∈ splitOnP p l) : ∀ c ∈ s, c ∈ l := by
  induction l generalizing s with
  | nil =>
    simp only [splitOnP_nil, List.mem_singleton] at hs
    subst hs; simp
  | cons a rest ih =>
    by_cases ha : p a
    · rw [splitOnP_cons_sep rest ha] at hs
      rcases List.mem_cons.mp hs with h1 | h1
      · subst h1; simp
      · exact fun c hc => List.mem_cons_of_mem a (ih h1 c hc)
    · rw [splitOnP_cons_nosep rest (by simpa using ha)] at hs
      cases hsp : splitOnP p rest with
      | nil => exact absurd hsp (splitOnP_ne_nil p rest)
      | cons hh tt =>
        rw [hsp] at hs
        simp only [List.modifyHead] at hs
        rcases List.mem_cons.mp hs with h1 | h1
        · subst h1
          intro c hc
          rcases List.mem_cons.mp hc with rfl | hc2
          · simp
          · exact List.mem_cons_of_mem a
              (ih (by rw [hsp]; exact List.mem_cons_self hh tt) c hc2)
        · exact fun c hc =>
            List.mem_cons_of_mem a (ih (by rw [hsp]; exact List.mem_cons_of_mem hh h1) c hc)

lemma pyStrip_sublist (l : List Char) : (pyStrip l).Sublist l := by
  unfold pyStrip
  have h1 : (l.dropWhile isPySpace).Sublist l := List.dropWhile_sublist _
  have h2 : ((l.dropWhile isPySpace).reverse.dropWhile isPySpace).Sublist
      (l.dropWhile isPySpace).reverse := List.dropWhile_sublist _
  have h3 := h2.reverse
  rw [List.reverse_reverse] at h3
  exact h3.trans h1

lemma pyStrip_subset {l : List Char} {c : Char} (h : c ∈ pyStrip l) : c ∈ l :=
  (pyStrip_sublist l).subset h

lemma pyStrip_length_le (l : List Char) : (pyStrip l).length ≤ l.length :=
  (pyStrip_sublist l).length_le

lemma pyStrip_eq_nil_of_all {l : List Char} (h : ∀ c ∈ l, isPySpace c = true) :
    pyStrip l = [] := by
  unfold pyStrip
  have h1 : l.dropWhile isPySpace = [] := List.dropWhile_eq_nil_iff.mpr h
  simp [h1]

lemma pyStrip_eq_nil_all {l : List Char} (h : pyStrip l = []) :
    ∀ c ∈ l, isPySpace c = true := by
  unfold pyStrip at h
  rcases hd : l.dropWhile isPySpace with _ | ⟨a, t⟩
  · exact List.dropWhile_eq_nil_iff.mp hd
  · exfalso
    have hh : isPySpace ((l.dropWhile isPySpace).head (by rw [hd]; simp)) = false :=
      List.head_dropWhile_not isPySpace l _
    have h2 : (l.dropWhile isPySpace).reverse.dropWhile isPySpace = [] := by
      have := congrArg List.reverse h
      simpa using this
    have h3 : ∀ c ∈ (l.dropWhile isPySpace).reverse, isPySpace c = true :=
      List.dropWhile_eq_nil_iff.mp h2
    have h4 : ∀ c ∈ l.dropWhile isPySpace, isPySpace c = true := by
      intro c hc; exact h3 c (by simpa using hc)
    have := h4 _ (List.head_mem (by rw [hd]; simp))
    rw [this] at hh
    simp at hh

lemma dropWhile_self_idem (p : Char → Bool) (l : List Char) :
    (l.dropWhile p).dropWhile p = l.dropWhile p := by
  induction l with
  | nil => rfl
  | cons a t ih =>
    by_cases ha : p a
    · simp [List.dropWhile_cons, ha, ih]
    · simp [List.dropWhile_cons, ha]

lemma dropWhile_head_cons {p : Char → Bool} {l t : List Char} {a : Char}
    (hd : l.dropWhile p = a :: t) : p a = false := by
  induction l with
  | nil => simp at hd
  | cons b bs ih =>
    by_cases hb : p b
    · rw [List.dropWhile_cons, if_pos hb] at hd
      exact ih hd
    · rw [List.dropWhile_cons, if_neg hb] at hd
      injection hd with h1 h2
      rw [← h1]
      simpa using hb

lemma pyStrip_head_not_space {l : List Char} (h : pyStrip l ≠ []) :
    ∃ c rest, pyStrip l = c :: rest ∧ isPySpace c = false := by
  cases hy : pyStrip l with
  | nil => exact absurd hy h
  | cons b bs =>
    refine ⟨b, bs, rfl, ?_⟩
    have hy2 : (List.dropWhile isPySpace (List.dropWhile isPySpace l).reverse).reverse
        = b :: bs := hy
    have hged : (List.dropWhile isPySpace (List.dropWhile isPySpace l).reverse).getLast?
        = some b := by
      rw [← List.head?_reverse, hy2]
      rfl
    obtain ⟨t0, ht0⟩ :=
      List.dropWhile_suffix (l := (List.dropWhile isPySpace l).reverse) isPySpace
    have h1 : (List.dropWhile isPySpace l).reverse.getLast? = some b := by
      rw [← ht0, List.getLast?_append, hged]
      rfl
    have h2 : (List.dropWhile isPySpace l).head? = some b := by
      rw [← List.getLast?_reverse]
      exact h1
    obtain ⟨t1, ht1⟩ : ∃ t1, List.dropWhile isPySpace l = b :: t1 := by
      cases hdd : List.dropWhile isPySpace l with
      | nil => rw [hdd] at h2; simp at h2
      | cons x xs =>
        rw [hdd] at h2
        simp at h2
        exact ⟨xs, by rw [h2]⟩
    exact dropWhile_head_cons ht1

lemma pyStrip_idem (l : List Char) : pyStrip (pyStrip l) = pyStrip l := by
  by_cases h : pyStrip l = []
  · rw [h]; rfl
  · obtain ⟨c, rest, hc, hcf⟩ := pyStrip_head_not_space h
    have step1 : (pyStrip l).dropWhile isPySpace = pyStrip l := by
      rw [hc]
      simp [List.dropWhile_cons, hcf]
    have hrev : (pyStrip l).reverse
        = List.dropWhile isPySpace (List.dropWhile isPySpace l).reverse := by
      show (List.dropWhile isPySpace (List.dropWhile isPySpace l).reverse).reverse.reverse = _
      rw [List.reverse_reverse]
    have step2 : (pyStrip l).reverse.dropWhile isPySpace = (pyStrip l).reverse := by
      rw [hrev, dropWhile_self_idem]
    show (((pyStrip l).dropWhile isPySpace).reverse.dropWhile isPySpace).reverse = pyStrip l
    rw [step1, step2, List.reverse_reverse]

lemma nbPred_nil : (fun t => !(pyStrip t).isEmpty) ([] : List Char) = false := rfl

lemma nbPred_of_stripped {s : List Char} (hstrip : pyStrip s = s) (hne : s ≠ []) :
    (fun t => !(pyStrip t).isEmpty) s = true := by
  simp only [hstrip]
  simpa using hne

lemma nbLines_append_nl (A : List Char) : nbLines (A ++ ['\n']) = nbLines A := by
  unfold nbLines
  rw [splitOnP_append_single_sep A (by rfl), List.filter_append]
  simp [nbPred_nil]

lemma nbLines_nil : nbLines [] = [] := by
  simp [nbLines, splitOnP_nil, nbPred_nil]

lemma nbLines_single {s : List Char} (hs : ∀ c ∈ s, isNL c = false)
    (hstrip : pyStrip s = s) (hne : s ≠ []) : nbLines (s ++ ['\n']) = [s] := by
  unfold nbLines
  rw [splitOnP_append_single_sep s (by rfl), splitOnP_no_sep hs, List.filter_append]
  simp [nbPred_nil, nbPred_of_stripped hstrip hne]

lemma nbLines_append_line {A s : List Char} (hA : nlTerminated A)
    (hs : ∀ c ∈ s, isNL c = false) (hstrip : pyStrip s = s) (hne : s ≠ []) :
    nbLines (A ++ s ++ ['\n']) = nbLines A ++ [s] := by
  rcases hA with rfl | ⟨A2, rfl⟩
  · rw [List.nil_append, nbLines_single hs hstrip hne, nbLines_nil, List.nil_append]
  · have hL : A2 ++ ['\n'] ++ s ++ ['\n'] = A2 ++ '\n' :: (s ++ ['\n']) := by
      simp
    rw [hL]
    unfold nbLines
    rw [splitOnP_append_sep A2 (s ++ ['\n']) (by rfl),
      splitOnP_append_single_sep A2 (by rfl),
      splitOnP_append_single_sep s (by rfl), splitOnP_no_sep hs]
    rw [List.filter_append, List.filter_append, List.filter_append]
    simp [nbPred_nil, nbPred_of_stripped hstrip hne]

lemma nbLines_eq_nil_of_strip_nil {A : List Char} (h : pyStrip A = []) :
    nbLines A = [] := by
  have hall : ∀ c ∈ A, isPySpace c = true := pyStrip_eq_nil_all h
  unfold nbLines
  rw [List.filter_eq_nil_iff]
  intro s hssp
  have hsub : ∀ c ∈ s, isPySpace c = true := fun c hc =>
    hall c (splitOnP_mem_subset hssp c hc)
  simp [pyStrip_eq_nil_of_all hsub]

/-! ### The Section Splitter never drops non-header, non-blank lines (C5) -/

lemma recoveredLines_append_single (secs : List Sec) (sec : Sec) :
    recoveredLines (secs ++ [sec]) = recoveredLines secs ++ nbLines sec.content := by
  simp [recoveredLines]

lemma sbh_fold_inv (ls : List (List Char)) :
    ∀ st : List Sec × Sec, nlTerminated st.2.content →
    (∀ raw ∈ ls, ∀ c ∈ raw, isNL c = false) →
    (recoveredLines (ls.foldl sbhStep st).1 ++ nbLines (ls.foldl sbhStep st).2.content
      = recoveredLines st.1 ++ nbLines st.2.content ++ ls.filterMap goodLine)
    ∧ nlTerminated (ls.foldl sbhStep st).2.content := by
  induction ls with
  | nil => intro st hnl hls; simpa using hnl
  | cons raw rest ih =>
    intro st hnl hls
    have hrest : ∀ r ∈ rest, ∀ c ∈ r, isNL c = false := fun r hr =>
      hls r (List.mem_cons_of_mem raw hr)
    rw [List.foldl_cons]
    by_cases hblank : (pyStrip raw).isEmpty
    · -- blank line: a newline is appended to the current content
      have hstep : sbhStep st raw =
          (st.1, ⟨st.2.title, st.2.content ++ ['\n']⟩) := by
        simp [sbhStep, hblank]
      have hnl2 : nlTerminated (sbhStep st raw).2.content := by
        rw [hstep]; exact Or.inr ⟨st.2.content, rfl⟩
      obtain ⟨hmain, hterm⟩ := ih (sbhStep st raw) hnl2 hrest
      refine ⟨?_, hterm⟩
      rw [hmain, hstep]
      have hgood : goodLine raw = none := by simp [goodLine, hblank]
      simp [nbLines_append_nl, List.filterMap_cons, hgood]
    · by_cases hhead : isHeaderLine (pyStrip raw)
      · -- header line: seal the current section, start a new one
        have hstep : sbhStep st raw =
            ((if (pyStrip st.2.content).isEmpty then st.1 else st.1 ++ [st.2]),
              ⟨pyStripChars headerMarkChars (pyStrip raw), []⟩) := by
          simp [sbhStep, hblank, hhead]
        have hnl2 : nlTerminated (sbhStep st raw).2.content := by
          rw [hstep]; exact Or.inl rfl
        obtain ⟨hmain, hterm⟩ := ih (sbhStep st raw) hnl2 hrest
        refine ⟨?_, hterm⟩
        rw [hmain, hstep]
        have hgood : goodLine raw = none := by simp [goodLine, hblank, hhead]
        by_cases hemp : (pyStrip st.2.content).isEmpty
        · have hnb : nbLines st.2.content = [] :=
            nbLines_eq_nil_of_strip_nil (List.isEmpty_iff.mp hemp)
          simp [hemp, hnb, nbLines_nil, List.filterMap_cons, hgood]
        · simp [hemp, recoveredLines_append_single, nbLines_nil,
            List.filterMap_cons, hgood]
      · -- ordinary line: appended (stripped) to the current content
        have hstep : sbhStep st raw =
            (st.1, ⟨st.2.title, st.2.content ++ pyStrip raw ++ ['\n']⟩) := by
          simp [sbhStep, hblank, hhead]
        have hnl2 : nlTerminated (sbhStep st raw).2.content := by
          rw [hstep]
          exact Or.inr ⟨st.2.content ++ pyStrip raw, by simp⟩
        obtain ⟨hmain, hterm⟩ := ih (sbhStep st raw) hnl2 hrest
        refine ⟨?_, hterm⟩
        rw [hmain, hstep]
        have hsnl : ∀ c ∈ pyStrip raw, isNL c = false := fun c hc =>
          hls raw (List.mem_cons_self raw rest) c (pyStrip_subset hc)
        have hne : pyStrip raw ≠ [] := by simpa using hblank
        have hgood : goodLine raw = some (pyStrip raw) := by
          simp [goodLine, hblank, hhead]
        rw [nbLines_append_line hnl hsnl (pyStrip_idem raw) hne]
        simp [List.filterMap_cons, hgood]

/-- C5 (amended): for every input page text containing at least one non-blank
line that is not a header line, the non-blank lines of the concatenated
section contents emitted by `split_by_headers` are exactly the non-blank
NON-HEADER lines of the input, each in STRIPPED form, in order and exactly
once.  (Header lines move into section titles and are not part of any
content; every kept line is stripped before being appended.) -/
theorem c5_amended_splitter_recovers_lines (text : List Char)
    (h : ∃ raw ∈ splitOnP isNL text, (goodLine raw).isSome) :
    recoveredLines (split_by_headers text)
      = (splitOnP isNL text).filterMap goodLine := by
  have hls : ∀ raw ∈ splitOnP isNL text, ∀ c ∈ raw, isNL c = false :=
    fun raw hraw => splitOnP_mem_no_sep hraw
  have hinit : nlTerminated
      ((([], ⟨("Introduction").toList, []⟩) : List Sec × Sec)).2.content := Or.inl rfl
  obtain ⟨hmain, _⟩ := sbh_fold_inv (splitOnP isNL text) _ hinit hls
  have hzero : recoveredLines
      ((([], ⟨("Introduction").toList, []⟩) : List Sec × Sec)).1 = [] := rfl
  rw [hzero] at hmain
  have hznb : nbLines
      ((([], ⟨("Introduction").toList, []⟩) : List Sec × Sec)).2.content = [] :=
    nbLines_nil
  rw [hznb] at hmain
  simp only [List.nil_append] at hmain
  obtain ⟨raw0, hraw0, hsome0⟩ := h
  obtain ⟨v0, hv0⟩ := Option.isSome_iff_exists.mp hsome0
  have hfm_ne : (splitOnP isNL text).filterMap goodLine ≠ [] := by
    intro hcon
    have hv : v0 ∈ (splitOnP isNL text).filterMap goodLine :=
      List.mem_filterMap.mpr ⟨raw0, hraw0, hv0⟩
    rw [hcon] at hv
    simp at hv
  generalize hst : (splitOnP isNL text).foldl sbhStep
      ([], ⟨("Introduction").toList, []⟩) = st at hmain
  simp only [split_by_headers]
  rw [hst]
  by_cases hemp : (pyStrip st.2.content).isEmpty
  · rw [if_pos hemp]
    have hnb : nbLines st.2.content = [] :=
      nbLines_eq_nil_of_strip_nil (List.isEmpty_iff.mp hemp)
    rw [hnb, List.append_nil] at hmain
    have hne : st.1 ≠ [] := by
      intro hcon
      rw [hcon] at hmain
      exact hfm_ne (by rw [← hmain]; rfl)
    rw [if_neg (by simpa [List.isEmpty_iff] using hne)]
    exact hmain
  · rw [if_neg hemp]
    rw [if_neg (by simp [List.isEmpty_iff])]
    rw [recoveredLines_append_single]
    exact hmain

/-- C5 is false as stated: on the input `"# T\nx"` the input has the two
non-blank lines `"# T"` and `"x"`, but the concatenation of all emitted
section contents is `"x\n"` — the header line `"# T"` became the section
title and is not recovered by concatenating contents. -/
theorem c5_counterexample :
    ((split_by_headers (("# T\nx").toList)).map Sec.content).flatten = ("x\n").toList ∧
    nbLines (("# T\nx").toList) = [("# T").toList, ("x").toList] := by decide

/-- Witness for `c5_amended_splitter_recovers_lines` at the input `"hello"`. -/
theorem c5_amended_splitter_recovers_lines_witness :
    (∃ raw ∈ splitOnP isNL (("hello").toList), (goodLine raw).isSome) ∧
    recoveredLines (split_by_headers (("hello").toList))
      = (splitOnP isNL (("hello").toList)).filterMap goodLine :=
  ⟨by decide, c5_amended_splitter_recovers_lines _ (by decide)⟩

/-! ### Table Chunker claims (C3, C7, C8) and the classifier guard (C9) -/

/-- C8: whenever the number of non-blank lines of the content is at most
`max_rows`, the Table Chunker returns exactly one chunk, equal to the input
content string. -/
theorem c8_small_table_single_chunk (content : List Char) (maxRows : Nat)
    (h : ((splitOnP isNL content).filter (fun l => !(pyStrip l).isEmpty)).length ≤ maxRows) :
    chunk_table_content content maxRows = [content] := by
  simp only [chunk_table_content]
  rw [if_pos h]

/-- Witness for `c8_small_table_single_chunk` at `"a\nb"`, `max_rows = 10`. -/
theorem c8_small_table_single_chunk_witness :
    (((splitOnP isNL (("a\nb").toList)).filter
        (fun l => !(pyStrip l).isEmpty)).length ≤ 10) ∧
    chunk_table_content (("a\nb").toList) 10 = [("a\nb").toList] :=
  ⟨by decide, c8_small_table_single_chunk _ _ (by decide)⟩

/-- C9: content without a newline splits into fewer than 2 lines, so the
Content-Type Classifier returns false regardless of separators or keywords. -/
theorem c9_single_line_never_tabular (content : List Char) (h : '\n' ∉ content) :
    is_tabular_section content = false := by
  have hnl : ∀ c ∈ content, isNL c = false := by
    intro c hc
    simp only [isNL, beq_eq_false_iff_ne]
    rintro rfl
    exact h hc
  simp only [is_tabular_section, splitOnP_no_sep hnl]
  rfl

/-- Witness for `c9_single_line_never_tabular` at a pipe-rich, keyword-rich
single line. -/
theorem c9_single_line_never_tabular_witness :
    ('\n' ∉ ("premium|table|row|amount").toList) ∧
    is_tabular_section (("premium|table|row|amount").toList) = false :=
  ⟨by decide, c9_single_line_never_tabular _ (by decide)⟩

/-- C7: if the content has more than `max_rows` non-blank lines and a header
line is detected among the first three of them, then every chunk emitted
after the first begins with that exact header line. -/
theorem c7_header_prepended (content header : List Char) (maxRows startIdx : Nat)
    (_hk : 1 ≤ maxRows)
    (h : maxRows <
      ((splitOnP isNL content).filter (fun l => !(pyStrip l).isEmpty)).length)
    (hh : findHeaderAux
      (((splitOnP isNL content).filter (fun l => !(pyStrip l).isEmpty)).take 3) 0
      = some (header, startIdx)) :
    ∀ i ch, (chunk_table_content content maxRows)[i + 1]? = some ch →
      ∃ rest, ch = header ++ rest := by
  have hval : chunk_table_content content maxRows =
      match groupsOf maxRows
        (((splitOnP isNL content).filter
          (fun l => !(pyStrip l).isEmpty)).drop startIdx) with
      | [] => []
      | g :: gs => joinNL g :: gs.map (fun g2 => header ++ '\n' :: joinNL g2) := by
    simp only [chunk_table_content]
    rw [if_neg (by omega), hh]
  intro i ch hch
  rw [hval] at hch
  cases hg : groupsOf maxRows
      (((splitOnP isNL content).filter
        (fun l => !(pyStrip l).isEmpty)).drop startIdx) with
  | nil => rw [hg] at hch; simp at hch
  | cons g gs =>
    rw [hg] at hch
    simp only [List.getElem?_cons_succ] at hch
    have hmem : ch ∈ gs.map (fun g2 => header ++ '\n' :: joinNL g2) := by
      cases hlt : decide (i < (gs.map (fun g2 => header ++ '\n' :: joinNL g2)).length) with
      | true =>
        exact List.getElem?_mem hch
      | false => exact List.getElem?_mem hch
    obtain ⟨g2, hg2, hch2⟩ := List.mem_map.mp hmem
    exact ⟨'\n' :: joinNL g2, hch2.symm⟩

/-- Witness for `c7_header_prepended`: `"a|b\nc|d\ne|f"` with `max_rows = 1`
has header `"a|b"`; the chunk at index 1 begins with it. -/
theorem c7_header_prepended_witness :
    (1 ≤ 1) ∧
    (1 < ((splitOnP isNL (("a|b\nc|d\ne|f").toList)).filter
      (fun l => !(pyStrip l).isEmpty)).length) ∧
    (findHeaderAux (((splitOnP isNL (("a|b\nc|d\ne|f").toList)).filter
      (fun l => !(pyStrip l).isEmpty)).take 3) 0 = some ((("a|b").toList), 1)) ∧
    (∀ i ch, (chunk_table_content (("a|b\nc|d\ne|f").toList) 1)[i + 1]? = some ch →
      ∃ rest, ch = ("a|b").toList ++ rest) :=
  ⟨by decide, by decide, by decide,
    c7_header_prepended _ _ 1 1 (by decide) (by decide) (by decide)⟩

/-- C3 is false as stated: on the 25-row table with `max_rows = 10` the first
chunk consists of data rows 1–10 and does not contain the header line at
all (the claim asserted it contains the header line plus data rows 1–9). -/
theorem c3_counterexample :
    (chunk_table_content c3Table 10).headD [] =
      ("r1|x\nr2|x\nr3|x\nr4|x\nr5|x\nr6|x\nr7|x\nr8|x\nr9|x\nr10|x").toList ∧
    ¬ containsList (("h1|h2").toList)
      ((chunk_table_content c3Table 10).headD []) := by decide

/-- C3 (amended): on the 25-row pipe-delimited table with `max_rows = 10` the
Table Chunker returns exactly 3 chunks: data rows 1–10 WITHOUT the header
(chunking starts after the header line, which is only stored for later
prepending), then the header line plus data rows 11–20, then the header line
plus data rows 21–24. -/
theorem c3_amended_scenario_b :
    chunk_table_content c3Table 10 =
      [("r1|x\nr2|x\nr3|x\nr4|x\nr5|x\nr6|x\nr7|x\nr8|x\nr9|x\nr10|x").toList,
       ("h1|h2\nr11|x\nr12|x\nr13|x\nr14|x\nr15|x\nr16|x\nr17|x\nr18|x\nr19|x\nr20|x").toList,
       ("h1|h2\nr21|x\nr22|x\nr23|x\nr24|x").toList] := by decide

/-! ### Content-Type Classifier decision formula (C2) -/

lemma mkRat_cast_eq_div (a b : ℕ) : mkRat (a : Int) b = (a : ℚ) / (b : ℚ) := by
  rw [Rat.mkRat_eq_divInt, Rat.divInt_eq_div]
  push_cast
  ring

lemma mkRat_two_fifths : (mkRat 2 5 : ℚ) = 2/5 := by
  rw [show ((2 : Int)) = ((2 : ℕ) : Int) by norm_num, mkRat_cast_eq_div]
  norm_num

lemma mkRat_three_tenths : (mkRat 3 10 : ℚ) = 3/10 := by
  rw [show ((3 : Int)) = ((3 : ℕ) : Int) by norm_num, mkRat_cast_eq_div]
  norm_num

lemma mkRat_three_fifths : (mkRat 3 5 : ℚ) = 3/5 := by
  rw [show ((3 : Int)) = ((3 : ℕ) : Int) by norm_num, mkRat_cast_eq_div]
  norm_num

lemma mkRat_one_fifth : (mkRat 1 5 : ℚ) = 1/5 := by
  rw [show ((1 : Int)) = ((1 : ℕ) : Int) by norm_num, mkRat_cast_eq_div]
  norm_num

lemma mem_le_maxNat {l : List Nat} {x : Nat} (h : x ∈ l) : x ≤ maxNat l := by
  induction l with
  | nil => simp at h
  | cons a t ih =>
    rcases List.mem_cons.mp h with rfl | h2
    · exact le_max_left _ _
    · exact le_trans (ih h2) (le_max_right _ _)

lemma maxNat_mem {l : List Nat} (h : l ≠ []) : maxNat l ∈ l := by
  induction l with
  | nil => exact absurd rfl h
  | cons a t ih =>
    rcases eq_or_ne t [] with rfl | ht
    · simp [maxNat]
    · rcases le_total (maxNat t) a with hle | hle
      · have : maxNat (a :: t) = a := by
          simp only [maxNat, List.foldr_cons]
          exact max_eq_left hle
        rw [this]
        simp
      · have : maxNat (a :: t) = maxNat t := by
          simp only [maxNat, List.foldr_cons]
          exact max_eq_right hle
        rw [this]
        exact List.mem_cons_of_mem a (ih ht)

lemma pipe_pred_eq (l : List Char) :
    (l.contains '|' && decide (2 ≤ l.count '|')) = c2Pipe l := by
  cases h2 : decide (2 ≤ l.count '|') with
  | false => simp [c2Pipe, h2]
  | true =>
    have hmem : '|' ∈ l := List.count_pos_iff.mp (by
      have := of_decide_eq_true h2
      omega)
    simp [c2Pipe, h2, hmem]

lemma tab_pred_eq (l : List Char) :
    (l.contains '\t' && decide (1 ≤ l.count '\t')) = c2Tab l := by
  cases h2 : decide (1 ≤ l.count '\t') with
  | false =>
    have hr : c2Tab l = false := h2
    rw [hr, Bool.and_false]
  | true =>
    have hmem : '\t' ∈ l := List.count_pos_iff.mp (by
      have := of_decide_eq_true h2
      omega)
    simp [c2Tab, h2, hmem]

lemma ratio_iff_pipe (L : List (List Char)) :
    (mkRat 2 5 < mkRat (L.countP c2Pipe : Int) L.length) ↔
      (2 : ℚ)/5 < (L.countP c2Pipe : ℚ) / (L.length : ℚ) := by
  rw [mkRat_cast_eq_div, ← mkRat_two_fifths]

lemma ratio_iff_tab (L : List (List Char)) :
    (mkRat 3 10 < mkRat (L.countP c2Tab : Int) L.length) ↔
      (3 : ℚ)/10 < (L.countP c2Tab : ℚ) / (L.length : ℚ) := by
  rw [mkRat_cast_eq_div, ← mkRat_three_tenths]

lemma ratio_iff_pipe_fifth (L : List (List Char)) :
    (mkRat 1 5 < mkRat (L.countP c2Pipe : Int) L.length) ↔
      (1 : ℚ)/5 < (L.countP c2Pipe : ℚ) / (L.length : ℚ) := by
  rw [mkRat_cast_eq_div, ← mkRat_one_fifth]

lemma ratio_iff_tab_fifth (L : List (List Char)) :
    (mkRat 1 5 < mkRat (L.countP c2Tab : Int) L.length) ↔
      (1 : ℚ)/5 < (L.countP c2Tab : ℚ) / (L.length : ℚ) := by
  rw [mkRat_cast_eq_div, ← mkRat_one_fifth]

lemma consistency_iff (cc : List Nat) (hlen : 1 < cc.length) :
    ((3 : ℚ)/5 < mkRat (maxNat (cc.map (fun v => cc.count v)) : Int) cc.length ↔
      ∃ v ∈ cc, (3 : ℚ)/5 < (cc.count v : ℚ) / (cc.length : ℚ)) := by
  rw [mkRat_cast_eq_div]
  have hne : cc ≠ [] := by
    intro hcon
    rw [hcon] at hlen
    simp at hlen
  constructor
  · intro h
    have hmax : maxNat (cc.map (fun v => cc.count v)) ∈ cc.map (fun v => cc.count v) :=
      maxNat_mem (by simpa using hne)
    obtain ⟨v, hv, hvm⟩ := List.mem_map.mp hmax
    exact ⟨v, hv, by rw [hvm]; exact h⟩
  · rintro ⟨v, hv, hvlt⟩
    have hle : cc.count v ≤ maxNat (cc.map (fun v => cc.count v)) :=
      mem_le_maxNat (List.mem_map.mpr ⟨v, hv, rfl⟩)
    refine lt_of_lt_of_le hvlt ?_
    gcongr

/-- C2 (amended): the classifier returns true iff the content splits into at
least two lines AND one of the four threshold disjuncts holds, with all
ratios computed over ALL lines of `content.split('\n')` (blank lines count in
the denominators and contribute to the separator-count multiset), and with
the consistency disjunct requiring the multiset to have more than one
ELEMENT (not more than one distinct value).  `consistency > 0.6` is rendered
as: some value of the multiset has multiplicity ratio above 3/5. -/
theorem c2_amended_classifier_formula (content : List Char) :
    is_tabular_section content = true ↔ c2AmendedHolds content := by
  simp only [is_tabular_section, c2AmendedHolds]
  by_cases hlen : (splitOnP isNL content).length < 2
  · rw [if_pos hlen]
    refine iff_of_false (by simp) ?_
    rintro ⟨h2, -⟩
    omega
  · rw [if_neg hlen]
    have h2 : 2 ≤ (splitOnP isNL content).length := by omega
    have hpipe : (splitOnP isNL content).countP
        (fun l => l.contains '|' && decide (2 ≤ l.count '|'))
        = (splitOnP isNL content).countP c2Pipe :=
      List.countP_congr (fun x _ => by rw [pipe_pred_eq])
    have htab : (splitOnP isNL content).countP
        (fun l => l.contains '\t' && decide (1 ≤ l.count '\t'))
        = (splitOnP isNL content).countP c2Tab :=
      List.countP_congr (fun x _ => by rw [tab_pred_eq])
    rw [hpipe, htab,
      show (fun l : List Char => if l.contains '|' then some (l.count '|')
        else if l.contains '\t' then some (l.count '\t') else none) = sepCount from rfl,
      and_iff_right h2]
    simp only [Bool.or_eq_true, Bool.and_eq_true, decide_eq_true_eq, or_assoc]
    refine or_congr (ratio_iff_pipe _) (or_congr (ratio_iff_tab _)
      (or_congr ?_ (and_congr Iff.rfl
        (or_congr (ratio_iff_pipe_fifth _) (ratio_iff_tab_fifth _)))))
    constructor
    · rintro ⟨hc, hl⟩
      have hne : ((splitOnP isNL content).filterMap sepCount).isEmpty = false := by
        rcases hh : (splitOnP isNL content).filterMap sepCount with _ | ⟨a, t⟩
        · rw [hh] at hl; simp at hl
        · simp
      rw [if_neg (by simp [hne]), mkRat_three_fifths] at hc
      exact ⟨hl, (consistency_iff _ hl).mp hc⟩
    · rintro ⟨hl, hex⟩
      have hne : ((splitOnP isNL content).filterMap sepCount).isEmpty = false := by
        rcases hh : (splitOnP isNL content).filterMap sepCount with _ | ⟨a, t⟩
        · rw [hh] at hl; simp at hl
        · simp
      refine ⟨?_, hl⟩
      rw [if_neg (by simp [hne]), mkRat_three_fifths]
      exact (consistency_iff _ hl).mpr hex

/-- C2 is false as stated: on `"a|b|c\n\n"` the code computes
`pipe_ratio = 1/3` (one pipe-rich line out of THREE lines of `split('\n')`,
the two blank lines counting in the denominator) and returns false, while
the claim's formula, computed over the single non-blank line, gives
`pipe_ratio = 1 > 0.4` and demands true. -/
theorem c2_counterexample :
    is_tabular_section (("a|b|c\n\n").toList) = false ∧
    c2ClaimHolds (("a|b|c\n\n").toList) := by
  constructor
  · decide
  · simp only [c2ClaimHolds]
    left
    have hc : ((splitOnP isNL (("a|b|c\n\n").toList)).filter
        (fun l => !(pyStrip l).isEmpty)).countP c2Pipe = 1 := by decide
    have hl : ((splitOnP isNL (("a|b|c\n\n").toList)).filter
        (fun l => !(pyStrip l).isEmpty)).length = 1 := by decide
    rw [hc, hl]
    norm_num

/-! ### The sentence split removes terminators (C10) -/

lemma splitTermGo_ne_nil (fuel : Nat) (l : List Char) : splitTermGo fuel l ≠ [] := by
  induction fuel generalizing l with
  | zero => cases l <;> simp [splitTermGo]
  | succ fuel ih =>
    cases l with
    | nil => simp [splitTermGo]
    | cons c rest =>
      simp only [splitTermGo]
      by_cases hc : isTermCh c
      · simp [hc]
      · simp only [hc, if_false]
        cases hs : splitTermGo fuel rest with
        | nil => exact absurd hs (ih rest)
        | cons h t => simp [List.modifyHead]

lemma splitTermGo_term_free (fuel : Nat) (l : List Char) (hf : l.length ≤ fuel) :
    ∀ s ∈ splitTermGo fuel l, ∀ c ∈ s, isTermCh c = false := by
  induction fuel generalizing l with
  | zero =>
    cases l with
    | nil => intro s hs; simp only [splitTermGo, List.mem_singleton] at hs; simp [hs]
    | cons a t => simp at hf
  | succ fuel ih =>
    cases l with
    | nil => intro s hs; simp only [splitTermGo, List.mem_singleton] at hs; simp [hs]
    | cons c rest =>
      have hrest : rest.length ≤ fuel := by
        simp only [List.length_cons] at hf
        omega
      intro s hs
      simp only [splitTermGo] at hs
      by_cases hc : isTermCh c
      · rw [if_pos hc] at hs
        rcases List.mem_cons.mp hs with rfl | hs2
        · simp
        · exact ih (rest.dropWhile isTermCh)
            (le_trans (List.dropWhile_sublist _).length_le hrest) s hs2
      · rw [if_neg hc] at hs
        cases hg : splitTermGo fuel rest with
        | nil => exact absurd hg (splitTermGo_ne_nil fuel rest)
        | cons h t =>
          rw [hg] at hs
          simp only [List.modifyHead] at hs
          rcases List.mem_cons.mp hs with rfl | hs2
          · intro x hx
            rcases List.mem_cons.mp hx with rfl | hx2
            · simpa using hc
            · exact ih rest hrest h (by rw [hg]; exact List.mem_cons_self h t) x hx2
          · exact ih rest hrest s (by rw [hg]; exact List.mem_cons_of_mem h hs2)

lemma splitTerm_term_free (l : List Char) :
    ∀ s ∈ splitTerm l, ∀ c ∈ s, isTermCh c = false :=
  splitTermGo_term_free l.length l le_rfl

lemma splitNN_no_sep (l : List Char) (h : containsList ['\n', '\n'] l = false) :
    splitNN l = [l] := by
  induction l with
  | nil => rfl
  | cons c rest ih =>
    rcases rest with _ | ⟨c2, rest2⟩
    · rfl
    · have hsplit : beginsWith ['\n', '\n'] (c :: c2 :: rest2) = false ∧
          containsList ['\n', '\n'] (c2 :: rest2) = false := by
        have hh : containsList ['\n', '\n'] (c :: c2 :: rest2)
            = (beginsWith ['\n', '\n'] (c :: c2 :: rest2) ||
                containsList ['\n', '\n'] (c2 :: rest2)) := rfl
        rw [hh] at h
        exact ⟨(Bool.or_eq_false_iff.mp h).1, (Bool.or_eq_false_iff.mp h).2⟩
      have hcc : ¬(c = '\n' ∧ c2 = '\n') := by
        rintro ⟨rfl, rfl⟩
        have hbw : beginsWith ['\n', '\n'] ('\n' :: '\n' :: rest2) = true := by
          simp [beginsWith]
        rw [hsplit.1] at hbw
        simp at hbw
      simp only [splitNN]
      rw [if_neg hcc, ih hsplit.2]

lemma sent_fold_term_free (maxChars : Nat) (ss : List (List Char))
    (hss : ∀ s ∈ ss, ∀ c ∈ s, isTermCh c = false) :
    ∀ st : List (List Char) × List Char,
    (∀ ch ∈ st.1, ∀ c ∈ ch, isTermCh c = false) →
    (∀ c ∈ st.2, isTermCh c = false) →
    (∀ ch ∈ (ss.foldl (ctsSentStep maxChars) st).1, ∀ c ∈ ch, isTermCh c = false) ∧
    (∀ c ∈ (ss.foldl (ctsSentStep maxChars) st).2, isTermCh c = false) := by
  induction ss with
  | nil => intro st h1 h2; exact ⟨h1, h2⟩
  | cons sRaw rest ih =>
    intro st h1 h2
    have hsRaw : ∀ c ∈ pyStrip sRaw, isTermCh c = false := fun c hc =>
      hss sRaw (List.mem_cons_self sRaw rest) c (pyStrip_subset hc)
    have hrest : ∀ s ∈ rest, ∀ c ∈ s, isTermCh c = false := fun s hs =>
      hss s (List.mem_cons_of_mem sRaw hs)
    rw [List.foldl_cons]
    apply ih hrest
    · -- chunks after the step
      intro ch hch
      simp only [ctsSentStep] at hch
      by_cases hemp : (pyStrip sRaw).isEmpty
      · rw [if_pos hemp] at hch
        exact h1 ch hch
      · rw [if_neg hemp] at hch
        by_cases hover : maxChars < st.2.length + (pyStrip sRaw).length
        · rw [if_pos hover] at hch
          by_cases hcur : st.2.isEmpty
          · rw [if_pos hcur] at hch
            exact h1 ch hch
          · rw [if_neg hcur] at hch
            rcases List.mem_append.mp hch with hch1 | hch1
            · exact h1 ch hch1
            · rw [List.mem_singleton] at hch1
              subst hch1
              exact fun c hc => h2 c (pyStrip_subset hc)
        · rw [if_neg hover] at hch
          exact h1 ch hch
    · -- current chunk after the step
      intro c hc
      simp only [ctsSentStep] at hc
      by_cases hemp : (pyStrip sRaw).isEmpty
      · rw [if_pos hemp] at hc
        exact h2 c hc
      · rw [if_neg hemp] at hc
        by_cases hover : maxChars < st.2.length + (pyStrip sRaw).length
        · rw [if_pos hover] at hc
          exact hsRaw c hc
        · rw [if_neg hover] at hc
          by_cases hcur : st.2.isEmpty
          · rw [if_pos hcur] at hc
            exact hsRaw c hc
          · rw [if_neg hcur] at hc
            rcases List.mem_append.mp hc with hc1 | hc1
            · exact h2 c hc1
            · rcases List.mem_cons.mp hc1 with rfl | hc2
              · rfl
              · exact hsRaw c hc2

/-- C10: for a content string that is a single paragraph (no blank-line
boundary) longer than `max_chars`, the prose chunker splits it on sentence
terminators and the emitted chunks contain none of the characters `.`, `!`,
`?`; consequently, if the paragraph contained a terminator, concatenating the
emitted chunks cannot reproduce the paragraph's text. -/
theorem c10_sentence_split_drops_terminators (content : List Char) (maxChars : Nat)
    (hlong : maxChars < content.length)
    (hpara : containsList ['\n', '\n'] content = false) :
    (∀ ch ∈ chunk_text_content content maxChars, ∀ c ∈ ch, isTermCh c = false) ∧
    ((∃ c ∈ content, isTermCh c = true) →
      (chunk_text_content content maxChars).flatten ≠ content) := by
  have hmain : ∀ ch ∈ chunk_text_content content maxChars, ∀ c ∈ ch, isTermCh c = false := by
    unfold chunk_text_content
    rw [if_neg (by omega), splitNN_no_sep content hpara]
    simp only [List.foldl_cons, List.foldl_nil, ctsParaStep]
    rw [if_pos hlong]
    obtain ⟨g1, g2⟩ := sent_fold_term_free maxChars (splitTerm content)
      (splitTerm_term_free content) ([], []) (by simp) (by simp)
    intro ch hch
    by_cases hcur : ((splitTerm content).foldl (ctsSentStep maxChars) ([], [])).2.isEmpty
    · rw [if_pos hcur] at hch
      exact g1 ch hch
    · rw [if_neg hcur] at hch
      rcases List.mem_append.mp hch with hch1 | hch1
      · exact g1 ch hch1
      · rw [List.mem_singleton] at hch1
        subst hch1
        exact fun c hc => g2 c (pyStrip_subset hc)
  refine ⟨hmain, ?_⟩
  rintro ⟨c0, hc0, hterm⟩ hcon
  have hc0f : c0 ∈ (chunk_text_content content maxChars).flatten := by
    rw [hcon]
    exact hc0
  obtain ⟨ch, hch, hc0ch⟩ := List.mem_flatten.mp hc0f
  have := hmain ch hch c0 hc0ch
  rw [this] at hterm
  simp at hterm

/-- Witness for `c10_sentence_split_drops_terminators` at `"ab.cd"` with
`max_chars = 3`: the chunks are `["ab", "cd"]`, terminator-free, and their
concatenation `"abcd"` is not the original `"ab.cd"`. -/
theorem c10_sentence_split_drops_terminators_witness :
    (3 < (("ab.cd").toList).length) ∧
    (containsList ['\n', '\n'] (("ab.cd").toList) = false) ∧
    (∀ ch ∈ chunk_text_content (("ab.cd").toList) 3, ∀ c ∈ ch, isTermCh c = false) ∧
    ((∃ c ∈ (("ab.cd").toList), isTermCh c = true) →
      (chunk_text_content (("ab.cd").toList) 3).flatten ≠ (("ab.cd").toList)) :=
  ⟨by decide, by decide,
    (c10_sentence_split_drops_terminators _ 3 (by decide) (by decide)).1,
    (c10_sentence_split_drops_terminators _ 3 (by decide) (by decide)).2⟩

/-! ### The prose chunker's size bound (C4) -/

lemma c4_flush {content : List Char} {maxChars : Nat} {cur : List Char}
    (h : c4CurOk content maxChars cur) :
    (pyStrip cur).length ≤ maxChars + 2 ∨ IsPieceOf content maxChars (pyStrip cur) := by
  rcases h with hlen | ⟨p, hp, hcur⟩ | ⟨p, hp, hplong, s, hs, hcur⟩
  · exact Or.inl (le_trans (pyStrip_length_le cur) hlen)
  · exact Or.inr (Or.inl ⟨p, hp, by rw [hcur]⟩)
  · exact Or.inr (Or.inr ⟨p, hp, hplong, s, hs, by rw [hcur, pyStrip_idem]⟩)

lemma c4_sent_fold (content : List Char) (maxChars : Nat) (p : List Char)
    (hp : p ∈ splitNN content) (hplong : maxChars < p.length) :
    ∀ ss : List (List Char), (∀ s ∈ ss, s ∈ splitTerm p) →
    ∀ st : List (List Char) × List Char,
    (∀ ch ∈ st.1, ch.length ≤ maxChars + 2 ∨ IsPieceOf content maxChars ch) →
    c4CurOk content maxChars st.2 →
    (∀ ch ∈ (ss.foldl (ctsSentStep maxChars) st).1,
      ch.length ≤ maxChars + 2 ∨ IsPieceOf content maxChars ch) ∧
    c4CurOk content maxChars (ss.foldl (ctsSentStep maxChars) st).2 := by
  intro ss
  induction ss with
  | nil => intro _ st h1 h2; exact ⟨h1, h2⟩
  | cons sRaw rest ih =>
    intro hss st h1 h2
    have hmem : sRaw ∈ splitTerm p := hss sRaw (List.mem_cons_self sRaw rest)
    have hrest : ∀ s ∈ rest, s ∈ splitTerm p := fun s hs =>
      hss s (List.mem_cons_of_mem sRaw hs)
    rw [List.foldl_cons]
    apply ih hrest
    · intro ch hch
      simp only [ctsSentStep] at hch
      by_cases hemp : (pyStrip sRaw).isEmpty
      · rw [if_pos hemp] at hch
        exact h1 ch hch
      · rw [if_neg hemp] at hch
        by_cases hover : maxChars < st.2.length + (pyStrip sRaw).length
        · rw [if_pos hover] at hch
          by_cases hcur : st.2.isEmpty
          · rw [if_pos hcur] at hch
            exact h1 ch hch
          · rw [if_neg hcur] at hch
            rcases List.mem_append.mp hch with hch1 | hch1
            · exact h1 ch hch1
            · rw [List.mem_singleton] at hch1
              subst hch1
              exact c4_flush h2
        · rw [if_neg hover] at hch
          exact h1 ch hch
    · simp only [ctsSentStep]
      by_cases hemp : (pyStrip sRaw).isEmpty
      · rw [if_pos hemp]
        exact h2
      · rw [if_neg hemp]
        by_cases hover : maxChars < st.2.length + (pyStrip sRaw).length
        · rw [if_pos hover]
          exact Or.inr (Or.inr ⟨p, hp, hplong, sRaw, hmem, rfl⟩)
        · rw [if_neg hover]
          by_cases hcur : st.2.isEmpty
          · rw [if_pos hcur]
            exact Or.inr (Or.inr ⟨p, hp, hplong, sRaw, hmem, rfl⟩)
          · rw [if_neg hcur]
            refine Or.inl ?_
            show (st.2 ++ ' ' :: pyStrip sRaw).length ≤ maxChars + 2
            have hlen2 : (st.2 ++ ' ' :: pyStrip sRaw).length
                = st.2.length + ((pyStrip sRaw).length + 1) := by
              simp
            omega

lemma c4_para_fold (content : List Char) (maxChars : Nat) :
    ∀ ps : List (List Char), (∀ q ∈ ps, q ∈ splitNN content) →
    ∀ st : List (List Char) × List Char,
    (∀ ch ∈ st.1, ch.length ≤ maxChars + 2 ∨ IsPieceOf content maxChars ch) →
    c4CurOk content maxChars st.2 →
    (∀ ch ∈ (ps.foldl (ctsParaStep maxChars) st).1,
      ch.length ≤ maxChars + 2 ∨ IsPieceOf content maxChars ch) ∧
    c4CurOk content maxChars (ps.foldl (ctsParaStep maxChars) st).2 := by
  intro ps
  induction ps with
  | nil => intro _ st h1 h2; exact ⟨h1, h2⟩
  | cons p rest ih =>
    intro hps st h1 h2
    have hp : p ∈ splitNN content := hps p (List.mem_cons_self p rest)
    have hrest : ∀ q ∈ rest, q ∈ splitNN content := fun q hq =>
      hps q (List.mem_cons_of_mem p hq)
    rw [List.foldl_cons]
    apply ih hrest
    · intro ch hch
      simp only [ctsParaStep] at hch
      by_cases hplong : maxChars < p.length
      · rw [if_pos hplong] at hch
        exact (c4_sent_fold content maxChars p hp hplong (splitTerm p)
          (fun s hs => hs) st h1 h2).1 ch hch
      · rw [if_neg hplong] at hch
        by_cases hover : maxChars < st.2.length + p.length
        · rw [if_pos hover] at hch
          by_cases hcur : st.2.isEmpty
          · rw [if_pos hcur] at hch
            exact h1 ch hch
          · rw [if_neg hcur] at hch
            rcases List.mem_append.mp hch with hch1 | hch1
            · exact h1 ch hch1
            · rw [List.mem_singleton] at hch1
              subst hch1
              exact c4_flush h2
        · rw [if_neg hover] at hch
          exact h1 ch hch
    · simp only [ctsParaStep]
      by_cases hplong : maxChars < p.length
      · rw [if_pos hplong]
        exact (c4_sent_fold content maxChars p hp hplong (splitTerm p)
          (fun s hs => hs) st h1 h2).2
      · rw [if_neg hplong]
        by_cases hover : maxChars < st.2.length + p.length
        · rw [if_pos hover]
          exact Or.inr (Or.inl ⟨p, hp, rfl⟩)
        · rw [if_neg hover]
          by_cases hcur : st.2.isEmpty
          · rw [if_pos hcur]
            exact Or.inr (Or.inl ⟨p, hp, rfl⟩)
          · rw [if_neg hcur]
            refine Or.inl ?_
            show (st.2 ++ '\n' :: '\n' :: p).length ≤ maxChars + 2
            have hlen2 : (st.2 ++ '\n' :: '\n' :: p).length
                = st.2.length + (p.length + 2) := by
              simp
            omega

/-- C4 (amended): every chunk the prose chunker emits has length at most
`max_chars + 2` — the accumulator check ignores the 1-character (space) or
2-character (blank line) joiner added afterwards — except chunks consisting
of exactly one stripped paragraph, or one stripped sentence of an over-long
paragraph, which may be arbitrarily long. -/
theorem c4_amended_prose_size_bound (content : List Char) (maxChars : Nat) :
    ∀ ch ∈ chunk_text_content content maxChars,
      ch.length ≤ maxChars + 2 ∨ IsPieceOf content maxChars ch := by
  unfold chunk_text_content
  by_cases hlen : content.length ≤ maxChars
  · rw [if_pos hlen]
    intro ch hch
    rw [List.mem_singleton] at hch
    subst hch
    exact Or.inl (by omega)
  · rw [if_neg hlen]
    obtain ⟨g1, g2⟩ := c4_para_fold content maxChars (splitNN content)
      (fun q hq => hq) ([], []) (by simp) (Or.inl (by simp))
    intro ch hch
    by_cases hcur : ((splitNN content).foldl (ctsParaStep maxChars) ([], [])).2.isEmpty
    · rw [if_pos hcur] at hch
      exact g1 ch hch
    · rw [if_neg hcur] at hch
      rcases List.mem_append.mp hch with hch1 | hch1
      · exact g1 ch hch1
      · rw [List.mem_singleton] at hch1
        subst hch1
        exact c4_flush g2

/-- C4 is false as stated: with `max_chars = 5` and content
`"ab\n\ncd\n\nef"` the first emitted chunk is `"ab\n\ncd"` of length 6 — it
exceeds `max_chars` yet consists of two packed paragraphs, not of a single
over-long sentence or paragraph (the accumulator check
`len(current) + len(next) > max_chars` does not count the 2-character
`"\n\n"` joiner that is then inserted). -/
theorem c4_counterexample :
    ∃ ch ∈ chunk_text_content (("ab\n\ncd\n\nef").toList) 5,
      5 < ch.length ∧ ¬ IsPieceOf (("ab\n\ncd\n\nef").toList) 5 ch := by decide

/-- Witness for `c4_amended_prose_size_bound`: the over-bound chunk
`"ab\n\ncd"` of the counterexample input satisfies the amended bound
`max_chars + 2`. -/
theorem c4_amended_prose_size_bound_witness :
    (("ab\n\ncd").toList ∈ chunk_text_content (("ab\n\ncd\n\nef").toList) 5) ∧
    ((("ab\n\ncd").toList).length ≤ 5 + 2 ∨
      IsPieceOf (("ab\n\ncd\n\nef").toList) 5 (("ab\n\ncd").toList)) :=
  ⟨by decide, c4_amended_prose_size_bound _ 5 _ (by decide)⟩

/-! ### Chunk id uniqueness and format (C6) -/

lemma digitChar_digit {m : Nat} (h : m < 10) : isDigCh (Nat.digitChar m) = true := by
  interval_cases m <;> decide

lemma digitChar_inj_fin : ∀ m n : Fin 10,
    Nat.digitChar m.val = Nat.digitChar n.val → m = n := by decide

lemma digitChar_inj {m n : Nat} (hm : m < 10) (hn : n < 10)
    (h : Nat.digitChar m = Nat.digitChar n) : m = n := by
  have h2 := digitChar_inj_fin ⟨m, hm⟩ ⟨n, hn⟩ h
  simpa using congrArg Fin.val h2

lemma natToDecGo_small {f n : Nat} (h10 : n < 10) :
    natToDecGo f n = [Nat.digitChar n] := by
  cases f with
  | zero => rfl
  | succ f2 => simp [natToDecGo, h10]

lemma natToDecGo_big {f n : Nat} (hn : 10 ≤ n) (hf : n ≤ f) :
    ∃ f2, f = f2 + 1 ∧
      natToDecGo f n = natToDecGo f2 (n / 10) ++ [Nat.digitChar (n % 10)] ∧
      n / 10 ≤ f2 := by
  cases f with
  | zero => omega
  | succ f2 =>
    refine ⟨f2, rfl, ?_, ?_⟩
    · simp [natToDecGo, Nat.not_lt.mpr hn]
    · have := Nat.div_lt_self (show 0 < n by omega) (show 1 < 10 by omega)
      omega

lemma natToDecGo_ne_nil (f n : Nat) : natToDecGo f n ≠ [] := by
  cases f with
  | zero => simp [natToDecGo]
  | succ f2 =>
    simp only [natToDecGo]
    by_cases h10 : n < 10
    · simp [h10]
    · simp [h10]

lemma natToDecGo_digits : ∀ (f n : Nat), n ≤ f →
    ∀ c ∈ natToDecGo f n, isDigCh c = true := by
  intro f
  induction f with
  | zero =>
    intro n hn c hc
    have : n = 0 := by omega
    subst this
    simp only [natToDecGo, List.mem_singleton] at hc
    subst hc
    exact digitChar_digit (by omega)
  | succ f2 ih =>
    intro n hn c hc
    by_cases h10 : n < 10
    · rw [natToDecGo_small h10, List.mem_singleton] at hc
      subst hc
      exact digitChar_digit h10
    · obtain ⟨f3, hf3, hgo, hdiv⟩ := natToDecGo_big (by omega) hn
      injection hf3 with hf3e
      subst hf3e
      rw [hgo] at hc
      rcases List.mem_append.mp hc with hc1 | hc1
      · exact ih (n / 10) hdiv c hc1
      · rw [List.mem_singleton] at hc1
        subst hc1
        exact digitChar_digit (Nat.mod_lt n (by omega))

lemma natToDec_digits (n : Nat) : ∀ c ∈ natToDec n, isDigCh c = true :=
  natToDecGo_digits n n le_rfl

lemma natToDecGo_inj : ∀ (f1 n1 : Nat), n1 ≤ f1 → ∀ (f2 n2 : Nat), n2 ≤ f2 →
    natToDecGo f1 n1 = natToDecGo f2 n2 → n1 = n2 := by
  intro f1
  induction f1 with
  | zero =>
    intro n1 hn1 f2 n2 hn2 heq
    have hz : n1 = 0 := by omega
    subst hz
    by_cases h10 : n2 < 10
    · rw [natToDecGo_small (by omega), natToDecGo_small h10] at heq
      injection heq with h1 _
      exact digitChar_inj (by omega) h10 h1
    · obtain ⟨f3, _, hgo, _⟩ := natToDecGo_big (by omega) hn2
      rw [natToDecGo_small (by omega), hgo] at heq
      have hlen := congrArg List.length heq
      simp only [List.length_singleton, List.length_append] at hlen
      have := natToDecGo_ne_nil f3 (n2 / 10)
      cases hcc : natToDecGo f3 (n2 / 10) with
      | nil => exact absurd hcc this
      | cons a t => rw [hcc] at hlen; simp at hlen
  | succ f1p ih =>
    intro n1 hn1 f2 n2 hn2 heq
    by_cases h1 : n1 < 10
    · by_cases h2 : n2 < 10
      · rw [natToDecGo_small h1, natToDecGo_small h2] at heq
        injection heq with hh _
        exact digitChar_inj h1 h2 hh
      · obtain ⟨f3, _, hgo, _⟩ := natToDecGo_big (by omega) hn2
        rw [natToDecGo_small h1, hgo] at heq
        have hlen := congrArg List.length heq
        simp only [List.length_singleton, List.length_append] at hlen
        cases hcc : natToDecGo f3 (n2 / 10) with
        | nil => exact absurd hcc (natToDecGo_ne_nil f3 (n2 / 10))
        | cons a t => rw [hcc] at hlen; simp at hlen
    · by_cases h2 : n2 < 10
      · obtain ⟨f3, hf3, hgo, _⟩ := natToDecGo_big (by omega) hn1
        rw [natToDecGo_small h2, hgo] at heq
        have hlen := congrArg List.length heq
        simp only [List.length_singleton, List.length_append] at hlen
        cases hcc : natToDecGo f3 (n1 / 10) with
        | nil => exact absurd hcc (natToDecGo_ne_nil f3 (n1 / 10))
        | cons a t => rw [hcc] at hlen; simp at hlen
      · obtain ⟨f3, hf3, hgo, hdiv⟩ := natToDecGo_big (by omega) hn1
        obtain ⟨f4, hf4, hgo2, hdiv2⟩ := natToDecGo_big (by omega) hn2
        injection hf3 with hf3e
        subst hf3e
        rw [hgo, hgo2] at heq
        obtain ⟨hpre, hsuf⟩ := List.append_inj' heq (by simp)
        have hdigit : n1 % 10 = n2 % 10 := by
          injection hsuf with hs _
          exact digitChar_inj (Nat.mod_lt n1 (by omega)) (Nat.mod_lt n2 (by omega)) hs
        have hdivs : n1 / 10 = n2 / 10 := ih (n1 / 10) hdiv f4 (n2 / 10) hdiv2 hpre
        omega

lemma natToDec_inj {m n : Nat} (h : natToDec m = natToDec n) : m = n :=
  natToDecGo_inj m m le_rfl n n le_rfl h

lemma digit_run_cancel : ∀ (l1 : List Char), (∀ x ∈ l1, isDigCh x = true) →
    ∀ (l2 : List Char), (∀ x ∈ l2, isDigCh x = true) →
    ∀ (r1 r2 : List Char), l1 ++ '_' :: r1 = l2 ++ '_' :: r2 →
    l1 = l2 ∧ r1 = r2 := by
  intro l1
  induction l1 with
  | nil =>
    intro _ l2 h2 r1 r2 heq
    cases l2 with
    | nil =>
      injection heq with _ ht
      exact ⟨rfl, ht⟩
    | cons b t2 =>
      rw [List.nil_append, List.cons_append] at heq
      injection heq with hh _
      have := h2 b (by simp)
      rw [← hh] at this
      simp [isDigCh] at this
  | cons a t ih =>
    intro h1 l2 h2 r1 r2 heq
    cases l2 with
    | nil =>
      rw [List.nil_append, List.cons_append] at heq
      injection heq with hh _
      have := h1 a (by simp)
      rw [hh] at this
      simp [isDigCh] at this
    | cons b t2 =>
      rw [List.cons_append, List.cons_append] at heq
      injection heq with hh ht
      subst hh
      obtain ⟨he1, he2⟩ := ih (fun x hx => h1 x (by simp [hx]))
        t2 (fun x hx => h2 x (by simp [hx])) r1 r2 ht
      exact ⟨by rw [he1], he2⟩

lemma mkChunkId_inj {d : List Char} {p1 s1 k1 p2 s2 k2 : Nat} {c1 c2 : Char}
    (h : mkChunkId d p1 s1 c1 k1 = mkChunkId d p2 s2 c2 k2) :
    p1 = p2 ∧ s1 = s2 ∧ c1 = c2 ∧ k1 = k2 := by
  unfold mkChunkId at h
  have h1 := List.append_cancel_left h
  injection h1 with _ h2
  injection h2 with _ h3
  obtain ⟨hp, hrest⟩ := digit_run_cancel (natToDec p1) (natToDec_digits p1)
    (natToDec p2) (natToDec_digits p2) _ _ h3
  injection hrest with _ h4
  obtain ⟨hs, hrest2⟩ := digit_run_cancel (natToDec s1) (natToDec_digits s1)
    (natToDec s2) (natToDec_digits s2) _ _ h4
  injection hrest2 with hc h5
  exact ⟨natToDec_inj hp, natToDec_inj hs, hc, natToDec_inj h5⟩

lemma pairwise_enum_fst_ne (l : List α) :
    l.enum.Pairwise (fun a b => a.1 ≠ b.1) := by
  have h := List.nodup_range l.length
  rw [← List.enum_map_fst l] at h
  exact List.pairwise_map.mp h

lemma nodup_enum_flatMap {α β : Type} (l : List α) (f : ℕ × α → List β)
    (h1 : ∀ pr ∈ l.enum, (f pr).Nodup)
    (h2 : ∀ pr ∈ l.enum, ∀ qr ∈ l.enum, pr.1 ≠ qr.1 → ∀ x ∈ f pr, x ∉ f qr) :
    (l.enum.flatMap f).Nodup := by
  rw [List.nodup_flatMap]
  refine ⟨h1, ?_⟩
  refine List.Pairwise.imp_of_mem ?_ (pairwise_enum_fst_ne l)
  intro a b ha hb hne
  intro x hxa hxb
  exact h2 a ha b hb hne x hxa hxb

lemma sectionChunks_shape (docId docName filePath : List Char)
    (createdAt page secIdx : Nat) (sec : Sec) :
    ∀ ch ∈ sectionChunks docId docName filePath createdAt page secIdx sec,
      ch.page_number = page ∧ ch.section_index = secIdx ∧
      (ch.type = ("table").toList ∨ ch.type = ("text").toList) ∧
      ∃ k, ch.chunk_id = mkChunkId docId page secIdx
        (if ch.type = ("table").toList then 't' else 'c') k := by
  intro ch hch
  unfold sectionChunks at hch
  by_cases htab : is_tabular_section sec.content
  · rw [if_pos htab] at hch
    obtain ⟨ce, _, hch2⟩ := List.mem_map.mp hch
    subst hch2
    exact ⟨rfl, rfl, Or.inl rfl, ce.1, rfl⟩
  · rw [if_neg htab] at hch
    obtain ⟨ce, _, hch2⟩ := List.mem_map.mp hch
    subst hch2
    exact ⟨rfl, rfl, Or.inr rfl, ce.1, rfl⟩

lemma nodup_map_chunk_id_of_form {L : List (ℕ × List Char)} {g : ℕ × List Char → Chunk}
    (d : List Char) (p s : Nat) (c : Char)
    (hL : (L.map Prod.fst).Nodup)
    (hform : ∀ ce, (g ce).chunk_id = mkChunkId d p s c ce.1) :
    ((L.map g).map Chunk.chunk_id).Nodup := by
  rw [List.map_map]
  have heq : L.map (Chunk.chunk_id ∘ g) = L.map (fun ce => mkChunkId d p s c ce.1) :=
    List.map_congr_left (fun ce _ => hform ce)
  rw [heq,
    show (fun ce : ℕ × List Char => mkChunkId d p s c ce.1)
      = ((fun k => mkChunkId d p s c k) ∘ Prod.fst) from rfl,
    ← List.map_map]
  exact List.Nodup.map (fun k1 k2 hk => (mkChunkId_inj hk).2.2.2) hL

lemma sectionChunks_ids_nodup (docId docName filePath : List Char)
    (createdAt page secIdx : Nat) (sec : Sec) :
    (((sectionChunks docId docName filePath createdAt page secIdx sec)).map
      Chunk.chunk_id).Nodup := by
  unfold sectionChunks
  by_cases htab : is_tabular_section sec.content
  · rw [if_pos htab]
    exact nodup_map_chunk_id_of_form docId page secIdx 't'
      (by rw [List.enum_map_fst]; exact List.nodup_range _) (fun ce => rfl)
  · rw [if_neg htab]
    exact nodup_map_chunk_id_of_form docId page secIdx 'c'
      (by rw [List.enum_map_fst]; exact List.nodup_range _) (fun ce => rfl)

lemma sectionChunks_id_form (docId docName filePath : List Char)
    (createdAt page secIdx : Nat) (sec : Sec) :
    ∀ x ∈ (sectionChunks docId docName filePath createdAt page secIdx sec).map
      Chunk.chunk_id, ∃ c k, x = mkChunkId docId page secIdx c k := by
  intro x hx
  obtain ⟨ch, hch, hx2⟩ := List.mem_map.mp hx
  obtain ⟨_, _, _, k, hid⟩ :=
    sectionChunks_shape docId docName filePath createdAt page secIdx sec ch hch
  exact ⟨_, k, by rw [← hx2, hid]⟩

lemma pageChunks_ids_nodup (docId docName filePath : List Char)
    (createdAt page : Nat) (text : List Char) :
    ((pageChunks docId docName filePath createdAt page text).map
      Chunk.chunk_id).Nodup := by
  unfold pageChunks
  rw [List.map_flatMap]
  apply nodup_enum_flatMap
  · intro pr _
    exact sectionChunks_ids_nodup docId docName filePath createdAt page pr.1 pr.2
  · intro pr _ qr _ hne x hx hx2
    obtain ⟨c1, k1, he1⟩ :=
      sectionChunks_id_form docId docName filePath createdAt page pr.1 pr.2 x hx
    obtain ⟨c2, k2, he2⟩ :=
      sectionChunks_id_form docId docName filePath createdAt page qr.1 qr.2 x hx2
    rw [he1] at he2
    exact hne (mkChunkId_inj he2).2.1

lemma pageChunks_id_form (docId docName filePath : List Char)
    (createdAt page : Nat) (text : List Char) :
    ∀ x ∈ (pageChunks docId docName filePath createdAt page text).map
      Chunk.chunk_id, ∃ s c k, x = mkChunkId docId page s c k := by
  intro x hx
  unfold pageChunks at hx
  rw [List.map_flatMap] at hx
  obtain ⟨se, _, hx2⟩ := List.mem_flatMap.mp hx
  obtain ⟨c, k, he⟩ :=
    sectionChunks_id_form docId docName filePath createdAt page se.1 se.2 x hx2
  exact ⟨se.1, c, k, he⟩

/-- C6: the chunk ids of all chunks returned by `chunk_document` are pairwise
distinct, and each has the form
`{document_id}_p{page_number}_s{section_index}_{t|c}{sub_index}` with `t` on
table chunks and `c` on text chunks. -/
theorem c6_chunk_ids_unique_and_formatted (docs : List (List Char))
    (docId docName filePath : List Char) (createdAt : Nat) :
    ((chunk_document docs docId docName filePath createdAt).map
      Chunk.chunk_id).Nodup ∧
    ∀ ch ∈ chunk_document docs docId docName filePath createdAt,
      (ch.type = ("table").toList ∨ ch.type = ("text").toList) ∧
      ∃ k, ch.chunk_id = mkChunkId docId ch.page_number ch.section_index
        (if ch.type = ("table").toList then 't' else 'c') k := by
  constructor
  · unfold chunk_document
    rw [List.map_flatMap]
    apply nodup_enum_flatMap
    · intro pr _
      exact pageChunks_ids_nodup docId docName filePath createdAt (pr.1 + 1) pr.2
    · intro pr _ qr _ hne x hx hx2
      obtain ⟨s1, c1, k1, he1⟩ :=
        pageChunks_id_form docId docName filePath createdAt (pr.1 + 1) pr.2 x hx
      obtain ⟨s2, c2, k2, he2⟩ :=
        pageChunks_id_form docId docName filePath createdAt (qr.1 + 1) qr.2 x hx2
      rw [he1] at he2
      have := (mkChunkId_inj he2).1
      omega
  · intro ch hch
    unfold chunk_document at hch
    obtain ⟨pe, _, hch2⟩ := List.mem_flatMap.mp hch
    unfold pageChunks at hch2
    obtain ⟨se, _, hch3⟩ := List.mem_flatMap.mp hch2
    obtain ⟨hpage, hsec, htype, k, hid⟩ :=
      sectionChunks_shape docId docName filePath createdAt (pe.1 + 1) se.1 se.2 ch hch3
    refine ⟨htype, k, ?_⟩
    rw [hid, hpage, hsec]

/-! ### The chunk-text non-emptiness invariant and Scenario C (C1) -/

/-- C1 is false as stated: a document consisting of one empty page text does
NOT produce zero chunks — `split_by_headers` falls back to one
`"Document Content"` section whose content is the empty string, the
classifier calls it prose, and `chunk_text_content` returns the whole (empty)
content as a single chunk, so exactly one chunk with empty (hence
blank-after-trimming) `text` is emitted. -/
theorem c1_counterexample :
    (chunk_document [([] : List Char)] (("doc").toList) (("doc.pdf").toList)
      (("/tmp/doc.pdf").toList) 0).length = 1 ∧
    ∃ ch ∈ chunk_document [([] : List Char)] (("doc").toList) (("doc.pdf").toList)
      (("/tmp/doc.pdf").toList) 0, pyStrip ch.text = [] := by decide

/-- C1 (amended): a document consisting of one empty page text produces
exactly ONE chunk — the fallback `"Document Content"` section's empty content
emitted as a single text chunk whose `text` is the empty string (blank after
trimming), with id `{document_id}_p1_s0_c0`. -/
theorem c1_amended_empty_page_single_empty_chunk
    (docId docName filePath : List Char) (createdAt : Nat) :
    chunk_document [([] : List Char)] docId docName filePath createdAt =
      [{ document_id := docId, document_name := docName, file_path := filePath,
         title := ("Document Content").toList, page_number := 1,
         section_index := 0, chunk_id := mkChunkId docId 1 0 'c' 0,
         created_at := createdAt, text := [], type := ("text").toList,
         text_info := some (analyze_text_structure []), table_info := none }] := rfl

/-- Witness for `c6_chunk_ids_unique_and_formatted` at a one-page document
`["hi"]`: its single chunk satisfies the type and id-format property. -/
theorem c6_chunk_ids_unique_and_formatted_witness :
    ∃ ch ∈ chunk_document [(("hi").toList)] (("d").toList) (("n").toList)
      (("f").toList) 0,
      (ch.type = ("table").toList ∨ ch.type = ("text").toList) ∧
      ∃ k, ch.chunk_id = mkChunkId (("d").toList) ch.page_number ch.section_index
        (if ch.type = ("table").toList then 't' else 'c') k := by
  have hne : chunk_document [(("hi").toList)] (("d").toList) (("n").toList)
      (("f").toList) 0 ≠ [] := by decide
  cases hc : chunk_document [(("hi").toList)] (("d").toList) (("n").toList)
      (("f").toList) 0 with
  | nil => exact absurd hc hne
  | cons ch rest =>
    refine ⟨ch, List.mem_cons_self ch rest, ?_⟩
    exact (c6_chunk_ids_unique_and_formatted [(("hi").toList)] (("d").toList)
      (("n").toList) (("f").toList) 0).2 ch
      (by rw [hc]; exact List.mem_cons_self ch rest)
